import Mathlib

/-!
# 11th-init: ring buffer, log shipper and signal loop

A shallow embedding of

* `internal/pkg/ringbuffer/ringbuffer.go` (`RingBuffer`, `New`, `Push`, `Pop`, `Empty`, `full`),
* `internal/pkg/elasticwriter/writer.go` (`Write`, `Close`, `process` as a step machine),
* the signal loop of `main.go`,

followed by the properties established about them.
-/

namespace Ringbuffer

/-! ## internal/pkg/ringbuffer/ringbuffer.go -/

/-- The struct `RingBuffer`.  The `container/ring` allocated by `ring.New` is the list `ring` of
its element values (`none` is the nil `Value` of a fresh element); an element pointer is the
index of the element, and the element after index `p` is index `(p + 1) % ring.length`, so two
pointers are equal exactly when the indices are.  `capacity`, `size` and `overflow` are the Go
`int` fields. -/
structure RingBuffer (α : Type) where
  ring : List (Option α)
  read : Nat
  write : Nat
  capacity : Int
  size : Int
  overflow : Int
deriving DecidableEq, Repr

variable {α : Type}

deriving instance DecidableEq for Except

/-- The 64-bit two's complement wrap-around of Go `int` arithmetic. -/
def wrapInt (x : Int) : Int :=
  (x + 2 ^ 63) % 2 ^ 64 - 2 ^ 63

/-- The method `Next` of `container/ring` on the ring of `r`: the element after index `p`. -/
def RingBuffer.next (r : RingBuffer α) (p : Nat) : Nat :=
  (p + 1) % r.ring.length

/-- The function `New`: `ring.New(capacity)` allocates `capacity` elements with nil values
(for `capacity ≤ 0` it returns the nil ring, on which `Push` cannot store anything; every result
below is about `capacity ≥ 1`); `read` and `write` both point at the first element and `size`
and `overflow` are zero. -/
def New (capacity : Int) : RingBuffer α :=
  { ring := List.replicate capacity.toNat none
    read := 0
    write := 0
    capacity := capacity
    size := 0
    overflow := 0 }

/-- The method `Empty`: `r.read == r.write`. -/
def RingBuffer.Empty (r : RingBuffer α) : Bool :=
  r.read == r.write

/-- The method `full`: `r.size == r.capacity`. -/
def RingBuffer.full (r : RingBuffer α) : Bool :=
  r.size == r.capacity

/-- The method `Push`: store the value in the `write` element, advance `write`; then, when
`full()` holds (tested on the size before this push), advance `read` and count an overflow,
otherwise count the size up. -/
def RingBuffer.Push (r : RingBuffer α) (value : α) : RingBuffer α :=
  let r1 := { r with ring := r.ring.set r.write (some value) }
  let r2 := { r1 with write := r1.next r1.write }
  if r2.full then
    { r2 with read := r2.next r2.read, overflow := wrapInt (r2.overflow + 1) }
  else
    { r2 with size := wrapInt (r2.size + 1) }

/-- The error value `fmt.Errorf("RingBuffer is empty")` of `Pop`. -/
def errEmpty : String := "RingBuffer is empty"

/-- The method `Pop`: when `Empty()` holds return the error and change nothing; otherwise return
the value of the `read` element, advance `read`, count the size down and reset `overflow`. -/
def RingBuffer.Pop (r : RingBuffer α) : Except String (Option α) × RingBuffer α :=
  if r.Empty then
    (Except.error errEmpty, r)
  else
    let v := (r.ring.getD r.read none)
    (Except.ok v,
      { r with read := r.next r.read, size := wrapInt (r.size - 1), overflow := 0 })

/-! ### Sequences of calls -/

/-- One call on the buffer: `Push(v)` or `Pop()`. -/
inductive Op (α : Type) where
  | push (v : α)
  | pop
deriving DecidableEq, Repr

/-- Apply the calls of `ops` to `r` in order; the result is the list of what the `Pop` calls
returned, in call order, and the final buffer. -/
def runOps (r : RingBuffer α) : List (Op α) → List (Except String (Option α)) × RingBuffer α
  | [] => ([], r)
  | Op.push v :: ops => runOps (r.Push v) ops
  | Op.pop :: ops =>
    let res := r.Pop
    let rest := runOps res.2 ops
    (res.1 :: rest.1, rest.2)

/-- The values pushed by `ops`, in call order. -/
def pushed : List (Op α) → List α
  | [] => []
  | Op.push v :: ops => v :: pushed ops
  | Op.pop :: ops => pushed ops

/-- The values of the successful results in a list of `Pop` results, in order. -/
def delivered : List (Except String (Option α)) → List (Option α)
  | [] => []
  | Except.ok v :: rs => v :: delivered rs
  | Except.error _ :: rs => delivered rs

/-- The events the buffer holds, oldest first: the values of the `size` elements starting at the
`read` element. -/
def RingBuffer.contents (r : RingBuffer α) : List (Option α) :=
  (List.range r.size.toNat).map (fun i => r.ring.getD ((r.read + i) % r.ring.length) none)

/-- The list-based FIFO queue the buffer is compared with, run on the calls of `ops` from the
queue `q` (oldest first): `Push(v)` appends `v` at the back, `Pop()` returns and removes the
front element, or returns the empty error when there is none. -/
def fifoRun (q : List α) : List (Op α) → List (Except String (Option α))
  | [] => []
  | Op.push v :: ops => fifoRun (q ++ [v]) ops
  | Op.pop :: ops =>
    match q with
    | [] => Except.error errEmpty :: fifoRun [] ops
    | x :: q1 => Except.ok (some x) :: fifoRun q1 ops

/-- Along the calls of `ops` from `r` the size never reaches the capacity: `size < capacity` in
`r` and after every call. -/
def belowCapacity (r : RingBuffer α) : List (Op α) → Bool
  | [] => decide (r.size < r.capacity)
  | Op.push v :: ops => decide (r.size < r.capacity) && belowCapacity (r.Push v) ops
  | Op.pop :: ops => decide (r.size < r.capacity) && belowCapacity r.Pop.2 ops

/-- The representation invariant of a buffer over a ring of `n` elements, `1 ≤ n < 2 ^ 63`:
both pointers are elements of the ring, `0 ≤ size ≤ n = capacity`, and `write` is `size`
elements after `read`. -/
structure WF (n : Nat) (r : RingBuffer α) : Prop where
  pos : 0 < n
  small : (n : Int) < 2 ^ 63
  len : r.ring.length = n
  cap : r.capacity = n
  rd : r.read < n
  size_nonneg : 0 ≤ r.size
  size_le : r.size ≤ n
  wr : r.write = (r.read + r.size.toNat) % n

end Ringbuffer

namespace Elasticwriter

open Ringbuffer

/-! ## internal/pkg/elasticwriter/writer.go -/

/-- An event is the `[]byte` argument of one `Write` call. -/
abbrev Event := List Nat

/-- The program point of the goroutine running `process()`.
`connect`: about to call `w.dial()` at the head of `CONNECT_LOOP`;
`waiting`: at the `select` on `w.readable` and `w.stop`;
`popping`: after `case <-w.readable`, about to lock the mutex and call `w.events.Pop()`;
`writing event`: about to call `conn.Write(event.([]byte))`;
`exiting`: after `break CONNECT_LOOP`, about to send on `w.finished`;
`done`: `process()` has returned;
`panicked`: the type assertion `event.([]byte)` met a nil value. -/
inductive Phase where
  | connect
  | waiting
  | popping
  | writing (event : Event)
  | exiting
  | done
  | panicked
deriving DecidableEq, Repr

/-- The struct `ElasticWriter` together with the control state of its goroutine and of the
caller of `Close()`.  A channel made with `make(chan struct{}, 1)` is the flag "one message is
in the channel".  `conn` lists the events for which `conn.Write` succeeded, oldest first;
`closing` says that a call of `Close()` has sent on `stop` and waits on `finished`; `closed`
counts the calls of `Close()` that have returned. -/
structure ElasticWriter where
  events : RingBuffer Event
  readable : Bool
  stop : Bool
  finished : Bool
  phase : Phase
  conn : List Event
  closing : Bool
  closed : Nat
deriving DecidableEq, Repr

/-- The function `New` on its success path (the TLS files load): the buffer is
`ringbuffer.New(numEvents)`, the three channels are empty and `go w.process()` has started the
goroutine at the head of `CONNECT_LOOP`. -/
def New (numEvents : Int) : ElasticWriter :=
  { events := Ringbuffer.New numEvents
    readable := false
    stop := false
    finished := false
    phase := Phase.connect
    conn := []
    closing := false
    closed := 0 }

/-- The atomic steps of the writer.
`Write p`: a whole call `Write(p)` (it holds the mutex from the first line to its return, and
its send on `readable` never blocks);
`dial ok`: `w.dial()` returns a connection (`ok = true`) or an error followed by `w.backoff`;
`recvReadable`, `recvStop`: the `select` of `process()` takes that case;
`pop`: `w.mutex.Lock(); w.events.Pop(); w.mutex.Unlock()` and the test of `err`;
`connWrite ok`: `conn.Write` succeeds or fails;
`sendFinished`: `w.finished <- struct{}{}`;
`closeSend`, `closeRecv`: the two channel operations of `Close()`. -/
inductive Step where
  | Write (p : Event)
  | dial (ok : Bool)
  | recvReadable
  | recvStop
  | pop
  | connWrite (ok : Bool)
  | sendFinished
  | closeSend
  | closeRecv
deriving DecidableEq, Repr

/-- The method `Write`: `empty := w.events.Empty()`, `w.events.Push(p)`, and when `empty` the
non-blocking send on `readable` (which leaves one message in the channel whether or not one was
there). -/
def ElasticWriter.Write (w : ElasticWriter) (p : Event) : ElasticWriter :=
  let empty := w.events.Empty
  let w1 := { w with events := w.events.Push p }
  if empty then { w1 with readable := true } else w1

/-- One step of the writer; `none` when the step cannot be taken in this state (the goroutine is
at another program point, or the channel operation blocks). -/
def step (w : ElasticWriter) : Step → Option ElasticWriter
  | Step.Write p => some (w.Write p)
  | Step.dial ok =>
    match w.phase with
    | Phase.connect =>
      if ok then some { w with phase := Phase.waiting } else some { w with phase := Phase.connect }
    | _ => none
  | Step.recvReadable =>
    match w.phase with
    | Phase.waiting =>
      if w.readable then some { w with readable := false, phase := Phase.popping } else none
    | _ => none
  | Step.recvStop =>
    match w.phase with
    | Phase.waiting =>
      if w.stop then some { w with stop := false, phase := Phase.exiting } else none
    | _ => none
  | Step.pop =>
    match w.phase with
    | Phase.popping =>
      match w.events.Pop with
      | (Except.error _, ev) => some { w with events := ev, phase := Phase.waiting }
      | (Except.ok (some event), ev) => some { w with events := ev, phase := Phase.writing event }
      | (Except.ok none, ev) => some { w with events := ev, phase := Phase.panicked }
    | _ => none
  | Step.connWrite ok =>
    match w.phase with
    | Phase.writing event =>
      if ok then some { w with conn := w.conn ++ [event], phase := Phase.waiting }
      else some { w with phase := Phase.connect }
    | _ => none
  | Step.sendFinished =>
    match w.phase with
    | Phase.exiting =>
      if w.finished then none else some { w with finished := true, phase := Phase.done }
    | _ => none
  | Step.closeSend =>
    if w.closing || w.stop then none else some { w with stop := true, closing := true }
  | Step.closeRecv =>
    if w.closing && w.finished then
      some { w with finished := false, closing := false, closed := w.closed + 1 }
    else none

/-- Take the steps of `steps` in order; `none` when one of them cannot be taken. -/
def run (w : ElasticWriter) : List Step → Option ElasticWriter
  | [] => some w
  | a :: steps =>
    match step w a with
    | some w1 => run w1 steps
    | none => none

/-- The goroutine has left the loops of `process()`: it is about to send on `finished`, or has
returned. -/
def Phase.exited : Phase → Bool
  | Phase.exiting => true
  | Phase.done => true
  | _ => false

/-- The states of the shutdown handshake between `Close()` and `process()`, in the order they
are passed through: no `Close()` called; stop request sent and not yet taken; stop request
taken; `finished` sent; first `Close()` returned; second `Close()` has sent its stop request. -/
def CloseInv (w : ElasticWriter) : Prop :=
  (w.closed = 0 ∧ w.closing = false ∧ w.stop = false ∧ w.finished = false
      ∧ w.phase.exited = false)
  ∨ (w.closed = 0 ∧ w.closing = true ∧ w.stop = true ∧ w.finished = false
      ∧ w.phase.exited = false)
  ∨ (w.closed = 0 ∧ w.closing = true ∧ w.stop = false ∧ w.finished = false
      ∧ w.phase = Phase.exiting)
  ∨ (w.closed = 0 ∧ w.closing = true ∧ w.stop = false ∧ w.finished = true
      ∧ w.phase = Phase.done)
  ∨ (w.closed = 1 ∧ w.closing = false ∧ w.stop = false ∧ w.finished = false
      ∧ w.phase = Phase.done)
  ∨ (w.closed = 1 ∧ w.closing = true ∧ w.stop = true ∧ w.finished = false
      ∧ w.phase = Phase.done)

/-- The state reached from `New(3)` by `Write([1])`, a failed dial, the send of a `Close()` on
`stop`, another failed dial and `Write([2])`. -/
def connectStuck : ElasticWriter :=
  { events := { ring := [some [1], some [2], none], read := 0, write := 2, capacity := 3,
                size := 2, overflow := 0 }
    readable := true
    stop := true
    finished := false
    phase := Phase.connect
    conn := []
    closing := true
    closed := 0 }

/-- The state reached from `New(3)` when a first `Close()` has returned: a successful dial, the
send of `Close()` on `stop`, the receive of the goroutine on `stop`, its send on `finished` and
the receive of `Close()` on `finished`. -/
def afterFirstClose : ElasticWriter :=
  { events := Ringbuffer.New 3
    readable := false
    stop := false
    finished := false
    phase := Phase.done
    conn := []
    closing := false
    closed := 1 }

end Elasticwriter

namespace Supervisor

/-! ## main.go: the signal loop -/

/-- A received `os.Signal`, as the number of the `syscall.Signal`. -/
abbrev Signal := Int

/-- The constant `syscall.SIGCHLD` (Linux). -/
def SIGCHLD : Signal := 17

/-- What the signal loop has done so far: `killed` lists the signals passed to
`syscall.Kill(pid.Pid, s)`, oldest first; `exitStatus` is the variable `exitStatus`; `looping`
says the `for s := range sigs` loop has not met its `break`. -/
structure LoopState where
  killed : List Signal
  exitStatus : Int
  looping : Bool
deriving DecidableEq, Repr

/-- The state before the loop: `var exitStatus int`. -/
def initial : LoopState :=
  { killed := [], exitStatus := 0, looping := true }

/-- The loop `for s := range sigs` over the signals received from the channel, where
`childStatus` is what `wstatus.ExitStatus()` returns after `syscall.Wait4`: on `SIGCHLD` the
status is recorded and the loop breaks, any other signal is passed to `syscall.Kill`; with no
signal left the loop blocks on the channel. -/
def signalLoop (childStatus : Int) : List Signal → LoopState → LoopState
  | [], st => st
  | s :: sigs, st =>
    if s = SIGCHLD then
      { st with exitStatus := childStatus, looping := false }
    else
      signalLoop childStatus sigs { st with killed := st.killed ++ [s] }

end Supervisor

/-! ## Properties of the ring buffer -/

namespace Ringbuffer

variable {α : Type}

theorem wrapInt_eq (x : Int) (h1 : -2 ^ 63 ≤ x) (h2 : x < 2 ^ 63) : wrapInt x = x := by
  unfold wrapInt
  omega

theorem mod_cases (x n : Nat) (hx : x < 2 * n) :
    (x < n ∧ x % n = x) ∨ (n ≤ x ∧ x % n = x - n) := by
  by_cases h : x < n
  · exact Or.inl ⟨h, Nat.mod_eq_of_lt h⟩
  · refine Or.inr ⟨by omega, ?_⟩
    rw [Nat.mod_eq_sub_mod (by omega), Nat.mod_eq_of_lt (by omega)]

theorem add_mod_inj {a i j n : Nat} (ha : a < n) (hi : i < n) (hj : j < n)
    (h : (a + i) % n = (a + j) % n) : i = j := by
  rcases mod_cases (a + i) n (by omega) with ⟨h1, h2⟩ | ⟨h1, h2⟩ <;>
  rcases mod_cases (a + j) n (by omega) with ⟨h3, h4⟩ | ⟨h3, h4⟩ <;> omega

theorem add_mod_self_iff {a k n : Nat} (ha : a < n) (hk : k ≤ n) :
    (a + k) % n = a ↔ (k = 0 ∨ k = n) := by
  constructor
  · intro h
    by_cases hkn : k = n
    · exact Or.inr hkn
    · left
      have h0 : (a + k) % n = (a + 0) % n := by
        rw [h, Nat.add_zero, Nat.mod_eq_of_lt ha]
      exact add_mod_inj ha (by omega) (by omega) h0
  · rintro (h | h)
    · subst h
      simpa using Nat.mod_eq_of_lt ha
    · subst h
      simpa using Nat.mod_eq_of_lt ha

theorem getD_set_ne (l : List (Option α)) {i j : Nat} (h : i ≠ j) (v : Option α) :
    (l.set i v).getD j none = l.getD j none := by
  simp [List.getD_eq_getElem?_getD, List.getElem?_set_ne h]

theorem getD_set_self (l : List (Option α)) {i : Nat} (h : i < l.length) (v : Option α) :
    (l.set i v).getD i none = v := by
  simp [List.getD_eq_getElem?_getD, List.getElem?_set_self, h]

theorem WF_New (C : Int) (h1 : 1 ≤ C) (h2 : C < 2 ^ 63) :
    WF C.toNat (New C : RingBuffer α) := by
  refine ⟨by omega, by omega, ?_, ?_, ?_, ?_, ?_, ?_⟩ <;> simp [New] <;> omega

theorem empty_iff {n : Nat} {r : RingBuffer α} (h : WF n r) :
    r.Empty = true ↔ (r.size = 0 ∨ r.size = n) := by
  have h1 := h.size_nonneg
  have h2 := h.size_le
  have h3 := @add_mod_self_iff r.read r.size.toNat n h.rd (by omega)
  simp only [RingBuffer.Empty, beq_iff_eq, h.wr]
  constructor
  · intro e
    rcases h3.mp e.symm with h4 | h4 <;> omega
  · intro e
    refine (h3.mpr ?_).symm
    omega

theorem Push_below {n : Nat} {r : RingBuffer α} (h : WF n r) (hs : r.size < n) (v : α) :
    r.Push v = { r with ring := r.ring.set r.write (some v), write := (r.write + 1) % n,
                        size := r.size + 1 } := by
  have h1 := h.size_nonneg
  have h2 := h.small
  have hf : ¬ (r.size = r.capacity) := by rw [h.cap]; omega
  have hw : wrapInt (r.size + 1) = r.size + 1 := wrapInt_eq _ (by omega) (by omega)
  simp [RingBuffer.Push, RingBuffer.full, RingBuffer.next, hf, h.len, hw]

theorem Push_full {n : Nat} {r : RingBuffer α} (h : WF n r) (hs : r.size = n) (v : α) :
    r.Push v = { r with ring := r.ring.set r.write (some v), write := (r.write + 1) % n,
                        read := (r.read + 1) % n, overflow := wrapInt (r.overflow + 1) } := by
  have hf : r.size = r.capacity := by rw [h.cap]; exact hs
  simp [RingBuffer.Push, RingBuffer.full, RingBuffer.next, hf, h.len]

theorem Pop_empty {r : RingBuffer α} (he : r.Empty = true) :
    r.Pop = (Except.error errEmpty, r) := by
  simp [RingBuffer.Pop, he]

theorem Pop_some {n : Nat} {r : RingBuffer α} (h : WF n r) (h0 : 0 < r.size) (hs : r.size < n) :
    r.Pop = (Except.ok (r.ring.getD r.read none),
      { r with read := (r.read + 1) % n, size := r.size - 1, overflow := 0 }) := by
  have h2 := h.small
  have he : ¬ (r.Empty = true) := by
    rw [empty_iff h]; omega
  have hw : wrapInt (r.size - 1) = r.size - 1 := wrapInt_eq _ (by omega) (by omega)
  simp [RingBuffer.Pop, he, RingBuffer.next, h.len, hw]

theorem write_eq_read_of_full {n : Nat} {r : RingBuffer α} (h : WF n r) (hs : r.size = n) :
    r.write = r.read := by
  have h3 := (@add_mod_self_iff r.read r.size.toNat n h.rd (by omega)).mpr (by omega)
  rw [h.wr, h3]

theorem WF_Push {n : Nat} {r : RingBuffer α} (h : WF n r) (v : α) : WF n (r.Push v) := by
  have h1 := h.size_nonneg
  have h2 := h.size_le
  by_cases hs : r.size = n
  · rw [Push_full h hs]
    refine ⟨h.pos, h.small, ?_, h.cap, Nat.mod_lt _ h.pos, h1, h2, ?_⟩
    · simp [h.len]
    · show (r.write + 1) % n = ((r.read + 1) % n + r.size.toNat) % n
      rw [write_eq_read_of_full h hs, Nat.mod_add_mod]
      have : r.size.toNat = n := by omega
      rw [this, Nat.add_mod_right]
  · rw [Push_below h (by omega)]
    refine ⟨h.pos, h.small, ?_, h.cap, h.rd, ?_, ?_, ?_⟩
    · simp [h.len]
    · show 0 ≤ r.size + 1
      omega
    · show r.size + 1 ≤ n
      omega
    · show (r.write + 1) % n = (r.read + (r.size + 1).toNat) % n
      have : (r.size + 1).toNat = r.size.toNat + 1 := by omega
      rw [this, h.wr, Nat.mod_add_mod, Nat.add_assoc]

theorem WF_Pop {n : Nat} {r : RingBuffer α} (h : WF n r) : WF n r.Pop.2 := by
  have h1 := h.size_nonneg
  have h2 := h.size_le
  by_cases he : r.Empty = true
  · rw [Pop_empty he]
    exact h
  · have hne : ¬ (r.size = 0 ∨ r.size = n) := fun hh => he ((empty_iff h).mpr hh)
    rw [Pop_some h (by omega) (by omega)]
    refine ⟨h.pos, h.small, h.len, h.cap, Nat.mod_lt _ h.pos, ?_, ?_, ?_⟩
    · show 0 ≤ r.size - 1
      omega
    · show r.size - 1 ≤ n
      omega
    · show r.write = ((r.read + 1) % n + (r.size - 1).toNat) % n
      have : r.size.toNat = 1 + (r.size - 1).toNat := by omega
      rw [h.wr, Nat.mod_add_mod, this, Nat.add_assoc]

theorem WF_runOps {n : Nat} (ops : List (Op α)) :
    ∀ {r : RingBuffer α}, WF n r → WF n (runOps r ops).2 := by
  induction ops with
  | nil => intro r h; exact h
  | cons op ops ih =>
    intro r h
    cases op with
    | push v => exact ih (WF_Push h v)
    | pop => exact ih (WF_Pop h)

theorem contents_Push_below {n : Nat} {r : RingBuffer α} (h : WF n r) (hs : r.size < n)
    (v : α) : (r.Push v).contents = r.contents ++ [some v] := by
  have h1 := h.size_nonneg
  have hk : (r.size + 1).toNat = r.size.toNat + 1 := by omega
  have hwlt : r.write < n := by rw [h.wr]; exact Nat.mod_lt _ h.pos
  rw [Push_below h hs]
  simp only [RingBuffer.contents, List.length_set, h.len, hk, List.range_succ, List.map_append,
    List.map_cons, List.map_nil]
  congr 1
  · apply List.map_congr_left
    intro i hi
    have hi2 : i < r.size.toNat := List.mem_range.mp hi
    apply getD_set_ne
    rw [h.wr]
    intro e
    have := add_mod_inj h.rd (by omega) (by omega) e
    omega
  · rw [← h.wr, getD_set_self _ (by rw [h.len]; exact hwlt)]

theorem contents_Push_full {n : Nat} {r : RingBuffer α} (h : WF n r) (hs : r.size = n)
    (v : α) : (r.Push v).contents = r.contents.tail ++ [some v] := by
  have hpos := h.pos
  have hwr := write_eq_read_of_full h hs
  have hk : r.size.toNat = (n - 1) + 1 := by omega
  rw [Push_full h hs]
  simp only [RingBuffer.contents, List.length_set, h.len, hk]
  conv_lhs => rw [List.range_succ, List.map_append]
  conv_rhs => rw [List.range_succ_eq_map]
  simp only [List.map_cons, List.tail_cons, List.map_map, List.map_nil]
  congr 1
  · apply List.map_congr_left
    intro i hi
    have hi2 : i < n - 1 := List.mem_range.mp hi
    simp only [Function.comp, Nat.succ_eq_add_one]
    rw [Nat.mod_add_mod, getD_set_ne, Nat.add_assoc, Nat.add_comm 1 i]
    rw [hwr]
    intro e
    have e2 : (r.read + 0) % n = (r.read + (1 + i)) % n := by
      rw [Nat.add_zero, Nat.mod_eq_of_lt h.rd, ← Nat.add_assoc]
      exact e
    have := add_mod_inj h.rd (by omega) (by omega) e2
    omega
  · have e : ((r.read + 1) % n + (n - 1)) % n = r.write := by
      rw [Nat.mod_add_mod, hwr]
      have : r.read + 1 + (n - 1) = r.read + n := by omega
      rw [this, Nat.add_mod_right, Nat.mod_eq_of_lt h.rd]
    rw [e, getD_set_self _ (by rw [h.len, hwr]; exact h.rd)]

theorem contents_Pop_some {n : Nat} {r : RingBuffer α} (h : WF n r) (h0 : 0 < r.size)
    (hs : r.size < n) : r.contents = r.ring.getD r.read none :: r.Pop.2.contents := by
  have hk : r.size.toNat = (r.size - 1).toNat + 1 := by omega
  rw [Pop_some h h0 hs]
  simp only [RingBuffer.contents, h.len]
  rw [hk, List.range_succ_eq_map]
  simp only [List.map_cons, List.map_map, Nat.add_zero, Nat.mod_eq_of_lt h.rd]
  congr 1
  apply List.map_congr_left
  intro i _
  simp only [Function.comp, Nat.succ_eq_add_one]
  rw [Nat.mod_add_mod, Nat.add_assoc, Nat.add_comm 1 i]

theorem contents_New (C : Int) : (New C : RingBuffer α).contents = [] := by
  simp [RingBuffer.contents, New]

theorem size_Push_full {n : Nat} {r : RingBuffer α} (h : WF n r) (hs : r.size = n) (v : α) :
    (r.Push v).size = n := by
  rw [Push_full h hs]
  exact hs

theorem Pop_full {n : Nat} {r : RingBuffer α} (h : WF n r) (hs : r.size = n) :
    r.Pop = (Except.error errEmpty, r) :=
  Pop_empty ((empty_iff h).mpr (Or.inr hs))

theorem Pop_zero {n : Nat} {r : RingBuffer α} (h : WF n r) (hs : r.size = 0) :
    r.Pop = (Except.error errEmpty, r) :=
  Pop_empty ((empty_iff h).mpr (Or.inl hs))

theorem runOps_full {n : Nat} (ops : List (Op α)) :
    ∀ {r : RingBuffer α}, WF n r → r.size = n →
      (runOps r ops).2.size = n ∧ ∀ res ∈ (runOps r ops).1, res = Except.error errEmpty := by
  induction ops with
  | nil => intro r _ hs; exact ⟨hs, by simp [runOps]⟩
  | cons op ops ih =>
    intro r h hs
    cases op with
    | push v => exact ih (WF_Push h v) (size_Push_full h hs v)
    | pop =>
      have hp := Pop_full h hs
      have := @ih r h hs
      simp only [runOps, hp, List.mem_cons]
      refine ⟨this.1, ?_⟩
      rintro res (e | e)
      · exact e
      · exact this.2 res e

theorem runOps_replicate_pop_zero {n : Nat} {r : RingBuffer α} (h : WF n r) (hs : r.size = 0)
    (k : Nat) :
    runOps r (List.replicate k Op.pop) = (List.replicate k (Except.error errEmpty), r) := by
  induction k with
  | zero => rfl
  | succ k ih => simp [List.replicate_succ, runOps, Pop_zero h hs, ih]

theorem held_Push {n : Nat} {r : RingBuffer α} (h : WF n r) (v : α)
    (hh : ∀ x ∈ r.contents, x ≠ none) : ∀ x ∈ (r.Push v).contents, x ≠ none := by
  have h2 := h.size_le
  by_cases hs : r.size = n
  · rw [contents_Push_full h hs]
    intro x hx
    rcases List.mem_append.mp hx with hx | hx
    · exact hh x (List.mem_of_mem_tail hx)
    · simp at hx; simp [hx]
  · rw [contents_Push_below h (by omega)]
    intro x hx
    rcases List.mem_append.mp hx with hx | hx
    · exact hh x hx
    · simp at hx; simp [hx]

theorem held_Pop {n : Nat} {r : RingBuffer α} (h : WF n r)
    (hh : ∀ x ∈ r.contents, x ≠ none) : ∀ x ∈ r.Pop.2.contents, x ≠ none := by
  have h1 := h.size_nonneg
  have h2 := h.size_le
  by_cases he : r.Empty = true
  · rw [Pop_empty he]
    exact hh
  · have hne : ¬ (r.size = 0 ∨ r.size = n) := fun e => he ((empty_iff h).mpr e)
    have hc := contents_Pop_some h (by omega) (by omega)
    intro x hx
    apply hh
    rw [hc]
    exact List.mem_cons_of_mem _ hx

theorem held_runOps {n : Nat} (ops : List (Op α)) :
    ∀ {r : RingBuffer α}, WF n r → (∀ x ∈ r.contents, x ≠ none) →
      ∀ x ∈ (runOps r ops).2.contents, x ≠ none := by
  induction ops with
  | nil => intro r _ hh; exact hh
  | cons op ops ih =>
    intro r h hh
    cases op with
    | push v => exact ih (WF_Push h v) (held_Push h v hh)
    | pop => exact ih (WF_Pop h) (held_Pop h hh)

theorem length_contents (r : RingBuffer α) : r.contents.length = r.size.toNat := by
  simp [RingBuffer.contents]

theorem delivered_sublist {n : Nat} (ops : List (Op α)) :
    ∀ {r : RingBuffer α}, WF n r →
      List.Sublist (delivered (runOps r ops).1) (r.contents ++ (pushed ops).map some) := by
  induction ops with
  | nil => intro r _; simp [runOps, delivered]
  | cons op ops ih =>
    intro r h
    have h1 := h.size_nonneg
    have h2 := h.size_le
    cases op with
    | push v =>
      have := @ih (r.Push v) (WF_Push h v)
      simp only [runOps, pushed, List.map_cons]
      by_cases hs : r.size = n
      · rw [contents_Push_full h hs, List.append_assoc] at this
        exact this.trans (List.Sublist.append (List.tail_sublist _) (List.Sublist.refl _))
      · rw [contents_Push_below h (by omega), List.append_assoc] at this
        exact this
    | pop =>
      have := @ih r.Pop.2 (WF_Pop h)
      simp only [runOps, pushed]
      by_cases he : r.Empty = true
      · rw [Pop_empty he] at this ⊢
        simpa [delivered] using this
      · have hne : ¬ (r.size = 0 ∨ r.size = n) := fun e => he ((empty_iff h).mpr e)
        have hc := contents_Pop_some h (by omega) (by omega)
        have hp := Pop_some h (by omega) (by omega)
        rw [hc]
        rw [hp] at this ⊢
        simp only [delivered, List.cons_append]
        exact List.Sublist.cons₂ _ this

theorem runOps_fifo {n : Nat} (ops : List (Op α)) :
    ∀ {r : RingBuffer α} (q : List α), WF n r → r.contents = q.map some →
      belowCapacity r ops = true → (runOps r ops).1 = fifoRun q ops := by
  induction ops with
  | nil => intro r q _ _ _; rfl
  | cons op ops ih =>
    intro r q h hq hb
    have h1 := h.size_nonneg
    have hcap := h.cap
    cases op with
    | push v =>
      simp only [belowCapacity, Bool.and_eq_true, decide_eq_true_eq] at hb
      have hs : r.size < n := by omega
      simp only [runOps, fifoRun]
      apply ih (q ++ [v]) (WF_Push h v) _ hb.2
      rw [contents_Push_below h hs, hq]
      simp
    | pop =>
      simp only [belowCapacity, Bool.and_eq_true, decide_eq_true_eq] at hb
      have hs : r.size < n := by omega
      by_cases h0 : r.size = 0
      · have hp := Pop_zero h h0
        have hl := length_contents r
        rw [hq, h0] at hl
        have hq0 : q = [] := by
          apply List.eq_nil_of_length_eq_zero
          simpa using hl
        subst hq0
        rw [hp] at hb
        simp only [runOps, fifoRun, hp]
        rw [ih [] h hq hb.2]
      · have hp := Pop_some h (by omega) hs
        have hc := contents_Pop_some h (by omega) hs
        rw [hq] at hc
        cases q with
        | nil => simp at hc
        | cons x q1 =>
          simp only [List.map_cons, List.cons.injEq] at hc
          simp only [runOps, fifoRun]
          rw [ih q1 (WF_Pop h) hc.2.symm hb.2, hp, ← hc.1]

theorem fifoRun_push (q : List α) (v : α) (ops : List (Op α)) :
    fifoRun q (Op.push v :: ops) = fifoRun (q ++ [v]) ops := rfl

theorem fifoRun_pop_cons (x : α) (q : List α) (ops : List (Op α)) :
    fifoRun (x :: q) (Op.pop :: ops) = Except.ok (some x) :: fifoRun q ops := rfl

theorem fifoRun_pushes (vs : List α) :
    ∀ (q : List α) (ops : List (Op α)),
      fifoRun q (vs.map Op.push ++ ops) = fifoRun (q ++ vs) ops := by
  induction vs with
  | nil => intro q ops; simp
  | cons v vs ih =>
    intro q ops
    rw [List.map_cons, List.cons_append, fifoRun_push, ih, List.append_assoc]
    rfl

theorem fifoRun_pops (q : List α) :
    fifoRun q (List.replicate (q.length + 1) Op.pop)
      = q.map (fun v => Except.ok (some v)) ++ [Except.error errEmpty] := by
  induction q with
  | nil => rfl
  | cons x q ih =>
    rw [List.length_cons, List.replicate_succ, fifoRun_pop_cons, ih]
    rfl

theorem belowCapacity_pops {n : Nat} (k : Nat) :
    ∀ {r : RingBuffer α}, WF n r → r.size < n →
      belowCapacity r (List.replicate k Op.pop) = true := by
  induction k with
  | zero =>
    intro r h hs
    simp only [List.replicate_zero, belowCapacity, decide_eq_true_eq, h.cap]
    exact hs
  | succ k ih =>
    intro r h hs
    have h1 := h.size_nonneg
    have hlt : r.size < r.capacity := by rw [h.cap]; exact hs
    simp only [List.replicate_succ, belowCapacity, Bool.and_eq_true, decide_eq_true_eq]
    refine ⟨hlt, ih (WF_Pop h) ?_⟩
    by_cases h0 : r.size = 0
    · rw [Pop_zero h h0]
      exact hs
    · rw [Pop_some h (by omega) hs]
      show r.size - 1 < n
      omega

theorem belowCapacity_pushes {n : Nat} (vs : List α) (ops : List (Op α)) :
    ∀ {r : RingBuffer α}, WF n r → r.size + vs.length < n →
      (∀ r1 : RingBuffer α, WF n r1 → r1.size = r.size + vs.length →
        belowCapacity r1 ops = true) →
      belowCapacity r (vs.map Op.push ++ ops) = true := by
  induction vs with
  | nil =>
    intro r h _ hk
    simpa using hk r h (by simp)
  | cons v vs ih =>
    intro r h hs hk
    have h1 := h.size_nonneg
    have hlt : r.size < n := by
      simp only [List.length_cons, Nat.cast_add, Nat.cast_one] at hs
      omega
    have hsz : (r.Push v).size = r.size + 1 := by rw [Push_below h hlt]
    simp only [List.map_cons, List.cons_append, belowCapacity, Bool.and_eq_true,
      decide_eq_true_eq, h.cap]
    refine ⟨hlt, ih (WF_Push h v) ?_ ?_⟩
    · rw [hsz]
      simp only [List.length_cons, Nat.cast_add, Nat.cast_one] at hs
      omega
    · intro r1 hr1 e
      apply hk r1 hr1
      rw [e, hsz]
      simp only [List.length_cons, Nat.cast_add, Nat.cast_one]
      omega

/-! ### The claims about the ring buffer -/

/-- C1, evaluated on the code at capacity 2 with pushes A, B, C (here 1, 2, 3): after the three
pushes the buffer holds B and C from the read position, but every one of three following `Pop`
calls returns the empty error, because `read == write` in the full buffer. -/
theorem pop_after_overflow_returns_empty_error :
    (runOps (New 2 : RingBuffer Nat) [Op.push 1, Op.push 2, Op.push 3]).2.contents
        = [some 2, some 3]
    ∧ (runOps (New 2 : RingBuffer Nat)
        [Op.push 1, Op.push 2, Op.push 3, Op.pop, Op.pop, Op.pop]).1
        = [Except.error errEmpty, Except.error errEmpty, Except.error errEmpty] := by
  decide

/-- C3: for every capacity `1 ≤ C` (a Go `int`) and every sequence of `Push` and `Pop` calls on
`New(C)`, the values returned by the successful `Pop` calls are pushed values, and they form a
subsequence of the list of pushed values: delivery follows push order and delivers each pushed
event at most once. -/
theorem delivered_is_subsequence_of_pushed (C : Int) (h1 : 1 ≤ C) (h2 : C < 2 ^ 63)
    (ops : List (Op α)) :
    ∃ ds : List α, delivered (runOps (New C) ops).1 = ds.map some
      ∧ List.Sublist ds (pushed ops) := by
  have h := delivered_sublist ops (WF_New (α := α) C h1 h2)
  rw [contents_New, List.nil_append] at h
  obtain ⟨ds, hds, e⟩ := List.sublist_map_iff.mp h
  exact ⟨ds, e, hds⟩

theorem delivered_is_subsequence_of_pushed_witness :
    ∃ ds : List Nat,
      delivered (runOps (New 3) [Op.push 1, Op.push 2, Op.pop, Op.push 3, Op.pop, Op.pop]).1
        = ds.map some
      ∧ List.Sublist ds (pushed [Op.push 1, Op.push 2, Op.pop, Op.push 3, Op.pop, Op.pop]) :=
  delivered_is_subsequence_of_pushed 3 (by norm_num) (by norm_num)
    [Op.push 1, Op.push 2, Op.pop, Op.push 3, Op.pop, Op.pop]

/-- C5: for every buffer `r` reached from `New(C)`, `C` a Go `int` with `1 ≤ C`, by `Push` and
`Pop` calls that has `size == C` and holds the events `e1, es` (oldest first, read from the
read position), `Push(v)` evicts exactly `e1`: afterwards the buffer holds `es` followed by
`v`, and `size` is still `C`. -/
theorem push_on_full_evicts_oldest (C : Int) (h1 : 1 ≤ C) (h2 : C < 2 ^ 63)
    (ops : List (Op α)) (r : RingBuffer α) (hr : r = (runOps (New C) ops).2)
    (e1 : α) (es : List α) (v : α)
    (hs : r.size = C) (hc : r.contents = (e1 :: es).map some) :
    (r.Push v).contents = (es ++ [v]).map some ∧ (r.Push v).size = C := by
  have h : WF C.toNat r := hr ▸ WF_runOps ops (WF_New C h1 h2)
  have hs1 : r.size = (C.toNat : Int) := by omega
  refine ⟨?_, ?_⟩
  · rw [contents_Push_full h hs1, hc]
    simp
  · rw [size_Push_full h hs1]
    omega

theorem push_on_full_evicts_oldest_witness :
    ((runOps (New 2 : RingBuffer Nat) [Op.push 1, Op.push 2]).2.Push 3).contents
        = ([2] ++ [3]).map some
    ∧ ((runOps (New 2 : RingBuffer Nat) [Op.push 1, Op.push 2]).2.Push 3).size = 2 :=
  push_on_full_evicts_oldest 2 (by norm_num) (by norm_num) [Op.push 1, Op.push 2]
    (runOps (New 2 : RingBuffer Nat) [Op.push 1, Op.push 2]).2 rfl 1 [2] 3
    (by decide) (by decide)

/-- C6: for every buffer `r` reached from `New(C)`, `C` a Go `int` with `1 ≤ C`, by `Push` and
`Pop` calls that has `size == 0`, `Pop` returns the empty error at once and leaves the whole
buffer (read and write position, size, overflow count, stored values) unchanged; hence `k`
consecutive `Pop` calls all return the empty error, for every `k`. -/
theorem pop_on_empty_fails (C : Int) (h1 : 1 ≤ C) (h2 : C < 2 ^ 63)
    (ops : List (Op α)) (r : RingBuffer α) (hr : r = (runOps (New C) ops).2)
    (hs : r.size = 0) (k : Nat) :
    r.Pop = (Except.error errEmpty, r)
    ∧ runOps r (List.replicate k Op.pop) = (List.replicate k (Except.error errEmpty), r) := by
  have h : WF C.toNat r := hr ▸ WF_runOps ops (WF_New C h1 h2)
  exact ⟨Pop_zero h hs, runOps_replicate_pop_zero h hs k⟩

theorem pop_on_empty_fails_witness :
    (runOps (New 3 : RingBuffer Nat) [Op.push 1, Op.pop]).2.Pop
        = (Except.error errEmpty, (runOps (New 3 : RingBuffer Nat) [Op.push 1, Op.pop]).2)
    ∧ runOps (runOps (New 3 : RingBuffer Nat) [Op.push 1, Op.pop]).2 (List.replicate 4 Op.pop)
        = (List.replicate 4 (Except.error errEmpty),
           (runOps (New 3 : RingBuffer Nat) [Op.push 1, Op.pop]).2) :=
  pop_on_empty_fails 3 (by norm_num) (by norm_num) [Op.push 1, Op.pop]
    (runOps (New 3 : RingBuffer Nat) [Op.push 1, Op.pop]).2 rfl (by decide) 4

/-- C8: the full state is absorbing.  For every buffer `r` reached from `New(C)`, `C` a Go
`int` with `1 ≤ C`, by `Push` and `Pop` calls that has `size == C`: the read and write
positions coincide, `Empty()` returns true although `C` pushed events are held, `Pop` returns
the empty error, and after any further calls `more` the size is still `C`, `read == write`
still holds and every `Pop` among them has returned the empty error. -/
theorem full_state_is_absorbing (C : Int) (h1 : 1 ≤ C) (h2 : C < 2 ^ 63)
    (ops : List (Op α)) (r : RingBuffer α) (hr : r = (runOps (New C) ops).2)
    (hs : r.size = C) (more : List (Op α)) :
    r.read = r.write
    ∧ r.Empty = true
    ∧ (r.contents.length = C.toNat ∧ ∀ x ∈ r.contents, x ≠ none)
    ∧ r.Pop = (Except.error errEmpty, r)
    ∧ (runOps r more).2.size = C
    ∧ (runOps r more).2.read = (runOps r more).2.write
    ∧ ∀ res ∈ (runOps r more).1, res = Except.error errEmpty := by
  have h : WF C.toNat r := hr ▸ WF_runOps ops (WF_New C h1 h2)
  have hs1 : r.size = (C.toNat : Int) := by omega
  have hheld : ∀ x ∈ r.contents, x ≠ none := by
    rw [hr]
    apply held_runOps ops (WF_New C h1 h2)
    rw [contents_New]
    intro x hx
    cases hx
  have hfin := runOps_full more h hs1
  have hwf := WF_runOps more h
  refine ⟨(write_eq_read_of_full h hs1).symm, (empty_iff h).mpr (Or.inr hs1),
    ⟨by rw [length_contents, hs], hheld⟩, Pop_full h hs1, by rw [hfin.1]; omega,
    (write_eq_read_of_full hwf hfin.1).symm, hfin.2⟩

theorem full_state_is_absorbing_witness :
    (runOps (New 2 : RingBuffer Nat) [Op.push 1, Op.push 2]).2.read
        = (runOps (New 2 : RingBuffer Nat) [Op.push 1, Op.push 2]).2.write
    ∧ (runOps (New 2 : RingBuffer Nat) [Op.push 1, Op.push 2]).2.Empty = true
    ∧ ((runOps (New 2 : RingBuffer Nat) [Op.push 1, Op.push 2]).2.contents.length
          = (2 : Int).toNat
        ∧ ∀ x ∈ (runOps (New 2 : RingBuffer Nat) [Op.push 1, Op.push 2]).2.contents, x ≠ none)
    ∧ (runOps (New 2 : RingBuffer Nat) [Op.push 1, Op.push 2]).2.Pop
        = (Except.error errEmpty, (runOps (New 2 : RingBuffer Nat) [Op.push 1, Op.push 2]).2)
    ∧ (runOps (runOps (New 2 : RingBuffer Nat) [Op.push 1, Op.push 2]).2
        [Op.pop, Op.push 3, Op.pop]).2.size = 2
    ∧ (runOps (runOps (New 2 : RingBuffer Nat) [Op.push 1, Op.push 2]).2
        [Op.pop, Op.push 3, Op.pop]).2.read
        = (runOps (runOps (New 2 : RingBuffer Nat) [Op.push 1, Op.push 2]).2
            [Op.pop, Op.push 3, Op.pop]).2.write
    ∧ ∀ res ∈ (runOps (runOps (New 2 : RingBuffer Nat) [Op.push 1, Op.push 2]).2
        [Op.pop, Op.push 3, Op.pop]).1, res = Except.error errEmpty :=
  full_state_is_absorbing 2 (by norm_num) (by norm_num) [Op.push 1, Op.push 2]
    (runOps (New 2 : RingBuffer Nat) [Op.push 1, Op.push 2]).2 rfl (by decide)
    [Op.pop, Op.push 3, Op.pop]

/-- C10: below capacity the ring buffer is a FIFO queue.  For every capacity `1 ≤ C` (a Go
`int`) and every sequence `ops` of `Push` and `Pop` calls on `New(C)` along which `size` never
reaches `C`, the `Pop` calls return what the list-based FIFO queue `fifoRun` returns for the
same calls; in particular pushing the `N < C` events `vs` and popping `N + 1` times returns the
events of `vs` in push order and then the empty error. -/
theorem below_capacity_is_fifo (C : Int) (h1 : 1 ≤ C) (h2 : C < 2 ^ 63)
    (ops : List (Op α)) (hb : belowCapacity (New C) ops = true)
    (vs : List α) (hlen : (vs.length : Int) < C) :
    (runOps (New C) ops).1 = fifoRun [] ops
    ∧ (runOps (New C) (vs.map Op.push ++ List.replicate (vs.length + 1) Op.pop)).1
        = vs.map (fun v => Except.ok (some v)) ++ [Except.error errEmpty] := by
  have hwf : WF C.toNat (New C : RingBuffer α) := WF_New C h1 h2
  have gen : ∀ ops : List (Op α), belowCapacity (New C) ops = true →
      (runOps (New C) ops).1 = fifoRun [] ops := by
    intro ops hb
    exact runOps_fifo ops [] hwf (by rw [contents_New]; rfl) hb
  refine ⟨gen ops hb, ?_⟩
  have hb2 : belowCapacity (New C : RingBuffer α)
      (vs.map Op.push ++ List.replicate (vs.length + 1) Op.pop) = true := by
    apply belowCapacity_pushes vs _ hwf
    · show (0 : Int) + vs.length < C.toNat
      omega
    · intro r1 hr1 e
      apply belowCapacity_pops _ hr1
      rw [e]
      show (0 : Int) + vs.length < C.toNat
      omega
  rw [gen _ hb2, fifoRun_pushes, List.nil_append, fifoRun_pops]

theorem below_capacity_is_fifo_witness :
    (runOps (New 3 : RingBuffer Nat)
        [Op.push 1, Op.push 2, Op.pop, Op.push 3, Op.pop, Op.pop, Op.pop]).1
      = fifoRun [] [Op.push 1, Op.push 2, Op.pop, Op.push 3, Op.pop, Op.pop, Op.pop]
    ∧ (runOps (New 3 : RingBuffer Nat)
        ([7, 8].map Op.push ++ List.replicate ([7, 8].length + 1) Op.pop)).1
        = [7, 8].map (fun v => Except.ok (some v)) ++ [Except.error errEmpty] :=
  below_capacity_is_fifo 3 (by norm_num) (by norm_num)
    [Op.push 1, Op.push 2, Op.pop, Op.push 3, Op.pop, Op.pop, Op.pop] (by decide)
    [7, 8] (by decide)

end Ringbuffer

/-! ## Properties of the signal loop -/

namespace Supervisor

theorem signalLoop_no_sigchld (childStatus : Int) (sigs : List Signal) :
    ∀ st : LoopState, SIGCHLD ∉ sigs →
      signalLoop childStatus sigs st = { st with killed := st.killed ++ sigs } := by
  induction sigs with
  | nil => intro st _; simp [signalLoop]
  | cons s sigs ih =>
    intro st hn
    have hs : s ≠ SIGCHLD := fun e => hn (e ▸ List.mem_cons_self _ _)
    have hr : SIGCHLD ∉ sigs := fun e => hn (List.mem_cons_of_mem _ e)
    simp [signalLoop, hs, ih _ hr]

theorem signalLoop_until_sigchld (childStatus : Int) (before after : List Signal) :
    ∀ st : LoopState, SIGCHLD ∉ before →
      signalLoop childStatus (before ++ SIGCHLD :: after) st
        = { killed := st.killed ++ before, exitStatus := childStatus, looping := false } := by
  induction before with
  | nil => intro st _; simp [signalLoop]
  | cons s before ih =>
    intro st hn
    have hs : s ≠ SIGCHLD := fun e => hn (e ▸ List.mem_cons_self _ _)
    have hr : SIGCHLD ∉ before := fun e => hn (List.mem_cons_of_mem _ e)
    simp [signalLoop, hs, ih _ hr]

/-- C4: for every sequence of signals received by the signal loop, written as the signals
`before` the first `SIGCHLD` (none of them `SIGCHLD`), then possibly `SIGCHLD` and the signals
`after` it: while only `before` has arrived, exactly the signals of `before` have been passed
to `syscall.Kill`, unchanged and in arrival order, and the loop is still running; once
`SIGCHLD` has arrived the exit status is recorded, the loop has ended, and the signals passed
to `syscall.Kill` are still exactly `before`, so neither `SIGCHLD` nor any signal of `after`
is forwarded. -/
theorem signals_forwarded_until_sigchld (childStatus : Int) (before after : List Signal)
    (hb : SIGCHLD ∉ before) :
    signalLoop childStatus before initial
        = { killed := before, exitStatus := 0, looping := true }
    ∧ signalLoop childStatus (before ++ SIGCHLD :: after) initial
        = { killed := before, exitStatus := childStatus, looping := false }
    ∧ SIGCHLD ∉ (signalLoop childStatus (before ++ SIGCHLD :: after) initial).killed := by
  have e1 := signalLoop_no_sigchld childStatus before initial hb
  have e2 := signalLoop_until_sigchld childStatus before after initial hb
  simp only [initial, List.nil_append] at e1 e2
  refine ⟨e1, e2, ?_⟩
  rw [show initial = { killed := [], exitStatus := 0, looping := true } from rfl, e2]
  exact hb

theorem signals_forwarded_until_sigchld_witness :
    signalLoop 3 [2, 15, 1] initial = { killed := [2, 15, 1], exitStatus := 0, looping := true }
    ∧ signalLoop 3 ([2, 15, 1] ++ SIGCHLD :: [15, SIGCHLD, 9]) initial
        = { killed := [2, 15, 1], exitStatus := 3, looping := false }
    ∧ SIGCHLD ∉ (signalLoop 3 ([2, 15, 1] ++ SIGCHLD :: [15, SIGCHLD, 9]) initial).killed :=
  signals_forwarded_until_sigchld 3 [2, 15, 1] [15, SIGCHLD, 9] (by decide)

end Supervisor

/-! ## Properties of the log shipper -/

namespace Elasticwriter

theorem run_cons (w : ElasticWriter) (a : Step) (steps : List Step) :
    run w (a :: steps) = (step w a).bind (fun w1 => run w1 steps) := by
  simp only [run]
  cases step w a <;> rfl

theorem step_in_connect {w w1 : ElasticWriter} {a : Step} (hp : w.phase = Phase.connect)
    (hf : w.finished = false) (ha : a ≠ Step.dial true) (hs : step w a = some w1) :
    w1.phase = Phase.connect ∧ w1.finished = false ∧ w1.closed = w.closed
      ∧ (w.stop = true → w1.stop = true) ∧ (a = Step.closeSend → w1.stop = true) := by
  cases a with
  | Write p =>
    simp only [step, ElasticWriter.Write, Option.some.injEq] at hs
    subst hs
    split <;> simp [hp, hf]
  | dial ok =>
    cases ok with
    | true => exact absurd rfl ha
    | false =>
      simp only [step, hp, Bool.false_eq_true, if_false, Option.some.injEq] at hs
      subst hs
      simp [hf]
  | recvReadable => simp [step, hp] at hs
  | recvStop => simp [step, hp] at hs
  | pop => simp [step, hp] at hs
  | connWrite ok => simp [step, hp] at hs
  | sendFinished => simp [step, hp] at hs
  | closeSend =>
    simp only [step] at hs
    split at hs
    · cases hs
    · simp only [Option.some.injEq] at hs
      subst hs
      simp [hp, hf]
  | closeRecv => simp [step, hf] at hs

theorem run_in_connect (steps : List Step) :
    ∀ {w w1 : ElasticWriter}, w.phase = Phase.connect → w.finished = false →
      (∀ ok, Step.dial ok ∈ steps → ok = false) → run w steps = some w1 →
      w1.phase = Phase.connect ∧ w1.finished = false ∧ w1.closed = w.closed
        ∧ (w.stop = true → w1.stop = true)
        ∧ (Step.closeSend ∈ steps → w1.stop = true) := by
  induction steps with
  | nil =>
    intro w w1 hp hf _ hr
    simp only [run, Option.some.injEq] at hr
    subst hr
    simp [hp, hf]
  | cons a steps ih =>
    intro w w1 hp hf hd hr
    rw [run_cons] at hr
    cases hs : step w a with
    | none => simp [hs] at hr
    | some w2 =>
      rw [hs] at hr
      have ha : a ≠ Step.dial true := by
        intro e
        have := hd true (e ▸ List.mem_cons_self _ _)
        cases this
      obtain ⟨p2, f2, c2, s2, cs2⟩ := step_in_connect hp hf ha hs
      obtain ⟨p3, f3, c3, s3, cs3⟩ :=
        ih p2 f2 (fun ok hok => hd ok (List.mem_cons_of_mem _ hok)) hr
      refine ⟨p3, f3, c3.trans c2, fun h => s3 (s2 h), ?_⟩
      intro hm
      rcases List.mem_cons.mp hm with e | e
      · exact s3 (cs2 e.symm)
      · exact cs3 e

/-- C9: the connect phase never reads the stop channel.  In every state `w0` whose goroutine
is in the connect phase, a failed dial returns to the connect phase and leaves the state as it
is (a pending stop request stays pending), and the receive on `stop` cannot be taken.  Hence in
every state `w` reached from `New(numEvents)`, `numEvents ≥ 1`, by steps among which every dial
fails, the goroutine is still in the connect phase: the send on `finished` cannot be taken,
`finished` is empty, no `Close()` has returned, and when a `Close()` has sent its stop request
that request is still in the channel. -/
theorem connect_phase_never_reads_stop (w0 : ElasticWriter) (hp0 : w0.phase = Phase.connect)
    (numEvents : Int) (_hn : 1 ≤ numEvents) (steps : List Step) (w : ElasticWriter)
    (hd : ∀ ok, Step.dial ok ∈ steps → ok = false)
    (hr : run (New numEvents) steps = some w) :
    (step w0 (Step.dial false) = some w0 ∧ step w0 Step.recvStop = none)
    ∧ w.phase = Phase.connect
    ∧ step w Step.sendFinished = none
    ∧ w.finished = false
    ∧ w.closed = 0
    ∧ (Step.closeSend ∈ steps → w.stop = true) := by
  obtain ⟨hp, hf, hc, _, hs⟩ := run_in_connect steps (w := New numEvents) rfl rfl hd hr
  refine ⟨⟨?_, ?_⟩, hp, ?_, hf, hc, hs⟩
  · cases w0
    simp only at hp0
    subst hp0
    rfl
  · simp [step, hp0]
  · simp [step, hp]

theorem connect_phase_never_reads_stop_witness :
    ((step connectStuck (Step.dial false) = some connectStuck
        ∧ step connectStuck Step.recvStop = none)
    ∧ connectStuck.phase = Phase.connect
    ∧ step connectStuck Step.sendFinished = none
    ∧ connectStuck.finished = false
    ∧ connectStuck.closed = 0
    ∧ (Step.closeSend ∈ [Step.Write [1], Step.dial false, Step.closeSend, Step.dial false,
        Step.Write [2]] → connectStuck.stop = true))
    ∧ connectStuck.stop = true :=
  ⟨connect_phase_never_reads_stop connectStuck rfl 3 (by norm_num)
    [Step.Write [1], Step.dial false, Step.closeSend, Step.dial false, Step.Write [2]]
    connectStuck (by decide) (by decide), rfl⟩

theorem CloseInv_New (numEvents : Int) : CloseInv (New numEvents) :=
  Or.inl ⟨rfl, rfl, rfl, rfl, rfl⟩

theorem CloseInv_step {w w1 : ElasticWriter} {a : Step} (hs : step w a = some w1)
    (hi : CloseInv w) : CloseInv w1 := by
  cases a with
  | Write p =>
    simp only [step, ElasticWriter.Write, Option.some.injEq] at hs
    subst hs
    split <;> exact hi
  | dial ok =>
    simp only [step] at hs
    split at hs
    · rename_i hp
      split at hs <;>
        (simp only [Option.some.injEq] at hs
         subst hs
         simp_all [CloseInv, Phase.exited])
    · cases hs
  | recvReadable =>
    simp only [step] at hs
    split at hs
    · rename_i hp
      split at hs
      · simp only [Option.some.injEq] at hs
        subst hs
        simp_all [CloseInv, Phase.exited]
      · cases hs
    · cases hs
  | recvStop =>
    simp only [step] at hs
    split at hs
    · rename_i hp
      split at hs
      · simp only [Option.some.injEq] at hs
        subst hs
        simp_all [CloseInv, Phase.exited]
      · cases hs
    · cases hs
  | pop =>
    simp only [step] at hs
    split at hs
    · rename_i hp
      split at hs <;>
        (simp only [Option.some.injEq] at hs
         subst hs
         simp_all [CloseInv, Phase.exited])
    · cases hs
  | connWrite ok =>
    simp only [step] at hs
    split at hs
    · rename_i hp
      split at hs <;>
        (simp only [Option.some.injEq] at hs
         subst hs
         simp_all [CloseInv, Phase.exited])
    · cases hs
  | sendFinished =>
    simp only [step] at hs
    split at hs
    · rename_i hp
      split at hs
      · cases hs
      · simp only [Option.some.injEq] at hs
        subst hs
        simp_all [CloseInv, Phase.exited]
    · cases hs
  | closeSend =>
    simp only [step] at hs
    split at hs
    · cases hs
    · simp only [Option.some.injEq] at hs
      subst hs
      simp_all [CloseInv, Phase.exited]
  | closeRecv =>
    simp only [step] at hs
    split at hs
    · simp only [Option.some.injEq] at hs
      subst hs
      simp_all [CloseInv, Phase.exited]
    · cases hs

theorem CloseInv_run (steps : List Step) :
    ∀ {w w1 : ElasticWriter}, run w steps = some w1 → CloseInv w → CloseInv w1 := by
  induction steps with
  | nil =>
    intro w w1 hr hi
    simp only [run, Option.some.injEq] at hr
    exact hr ▸ hi
  | cons a steps ih =>
    intro w w1 hr hi
    rw [run_cons] at hr
    cases hs : step w a with
    | none => simp [hs] at hr
    | some w2 =>
      rw [hs] at hr
      exact ih hr (CloseInv_step hs hi)

theorem step_after_exit {w w1 : ElasticWriter} {a : Step} (hp : w.phase = Phase.done)
    (hf : w.finished = false) (hs : step w a = some w1) :
    w1.phase = Phase.done ∧ w1.finished = false ∧ w1.closed = w.closed
      ∧ (w.closing = true → w1.closing = true) := by
  cases a with
  | Write p =>
    simp only [step, ElasticWriter.Write, Option.some.injEq] at hs
    subst hs
    split <;> simp [hp, hf]
  | dial ok => simp [step, hp] at hs
  | recvReadable => simp [step, hp] at hs
  | recvStop => simp [step, hp] at hs
  | pop => simp [step, hp] at hs
  | connWrite ok => simp [step, hp] at hs
  | sendFinished => simp [step, hp] at hs
  | closeSend =>
    simp only [step] at hs
    split at hs
    · cases hs
    · simp only [Option.some.injEq] at hs
      subst hs
      simp [hp, hf]
  | closeRecv => simp [step, hf] at hs

theorem run_after_exit (steps : List Step) :
    ∀ {w w1 : ElasticWriter}, w.phase = Phase.done → w.finished = false →
      run w steps = some w1 →
      w1.phase = Phase.done ∧ w1.finished = false ∧ w1.closed = w.closed
        ∧ (w.closing = true → w1.closing = true) := by
  induction steps with
  | nil =>
    intro w w1 hp hf hr
    simp only [run, Option.some.injEq] at hr
    subst hr
    simp [hp, hf]
  | cons a steps ih =>
    intro w w1 hp hf hr
    rw [run_cons] at hr
    cases hs : step w a with
    | none => simp [hs] at hr
    | some w2 =>
      rw [hs] at hr
      obtain ⟨p2, f2, c2, l2⟩ := step_after_exit hp hf hs
      obtain ⟨p3, f3, c3, l3⟩ := ih p2 f2 hr
      exact ⟨p3, f3, c3.trans c2, fun h => l3 (l2 h)⟩

/-! ### The claims about the log shipper -/

/-- C2, evaluated on the code for `New(.., 10)`: after a successful dial, `Write([1])`,
`Write([2])` (one notification posted), and the goroutine taking the notification, popping
`[1]` and writing it to the connection, the goroutine is back at its `select` with no readable
notification pending while the buffer still holds `[2]`; the receive on `readable` cannot be
taken, and a further `Write` posts no notification because the buffer is not empty. -/
theorem drain_task_waits_with_event_left :
    ∃ w : ElasticWriter,
      run (New 10) [Step.dial true, Step.Write [1], Step.Write [2], Step.recvReadable,
        Step.pop, Step.connWrite true] = some w
      ∧ w.phase = Phase.waiting ∧ w.readable = false
      ∧ w.events.contents = [some [2]] ∧ w.conn = [[1]]
      ∧ step w Step.recvReadable = none
      ∧ (w.Write [3]).readable = false
      ∧ (w.Write [3]).events.contents = [some [2], some [3]] :=
  ⟨_, rfl, by decide, by decide, by decide, by decide, by decide, by decide, by decide⟩

/-- C7, refuted on the code: the state `afterFirstClose` is reached from `New(3)` when a first
`Close()` has returned, and from it no sequence of steps leads to a state in which a second
`Close()` has returned. -/
theorem second_close_does_not_return :
    run (New 3) [Step.dial true, Step.closeSend, Step.recvStop, Step.sendFinished,
      Step.closeRecv] = some afterFirstClose
    ∧ afterFirstClose.closed = 1
    ∧ ¬ ∃ (steps : List Step) (w : ElasticWriter),
        run afterFirstClose steps = some w ∧ 2 ≤ w.closed := by
  refine ⟨by decide, rfl, ?_⟩
  rintro ⟨steps, w, hr, h2⟩
  have h := (run_after_exit steps (w := afterFirstClose) rfl rfl hr).2.2.1
  rw [h] at h2
  exact absurd h2 (by decide)

/-- C7 as amended: `Close()` returns once only.  In every state `w` reached from
`New(numEvents)`, `numEvents ≥ 1`, in which a first `Close()` has returned and no `Close()` is
in progress, a second `Close()` completes its send on `stop`, and in every state reached
afterwards that call is still waiting: the goroutine has returned, `finished` is empty, the
receive on `finished` cannot be taken, and the number of returned `Close()` calls is still
one. -/
theorem second_close_blocks_forever (numEvents : Int) (_hn : 1 ≤ numEvents)
    (steps : List Step) (w : ElasticWriter)
    (hr : run (New numEvents) steps = some w) (hc : 1 ≤ w.closed) (hcl : w.closing = false) :
    ∃ w1 : ElasticWriter, step w Step.closeSend = some w1
      ∧ ∀ (more : List Step) (w2 : ElasticWriter), run w1 more = some w2 →
          w2.closed = 1 ∧ w2.closing = true ∧ w2.phase = Phase.done ∧ w2.finished = false
          ∧ step w2 Step.closeRecv = none := by
  have hi := CloseInv_run steps hr (CloseInv_New numEvents)
  have hE : w.closed = 1 ∧ w.stop = false ∧ w.finished = false ∧ w.phase = Phase.done := by
    rcases hi with h | h | h | h | h | h
    · omega
    · omega
    · omega
    · omega
    · exact ⟨h.1, h.2.2.1, h.2.2.2.1, h.2.2.2.2⟩
    · rw [hcl] at h
      exact absurd h.2.1 (by decide)
  obtain ⟨hc1, hst, hf, hp⟩ := hE
  refine ⟨{ w with stop := true, closing := true }, by simp [step, hcl, hst], ?_⟩
  intro more w2 hm
  obtain ⟨p2, f2, c2, l2⟩ :=
    run_after_exit more (w := { w with stop := true, closing := true }) hp hf hm
  refine ⟨c2.trans hc1, l2 rfl, p2, f2, ?_⟩
  simp [step, f2]

theorem second_close_blocks_forever_witness :
    ∃ w1 : ElasticWriter, step afterFirstClose Step.closeSend = some w1
      ∧ ∀ (more : List Step) (w2 : ElasticWriter), run w1 more = some w2 →
          w2.closed = 1 ∧ w2.closing = true ∧ w2.phase = Phase.done ∧ w2.finished = false
          ∧ step w2 Step.closeRecv = none :=
  second_close_blocks_forever 3 (by norm_num)
    [Step.dial true, Step.closeSend, Step.recvStop, Step.sendFinished, Step.closeRecv]
    afterFirstClose (by decide) (by decide) rfl

end Elasticwriter
